import Mathlib

/-!
Verification development for the dinocrack repository
(`dinopass_generator.py`, `cartesian_rule.py`, `saturated_fetch.py`).

Strings are embedded as `List Char`.  The Python code only ever handles
ASCII passwords (fetched from a web service and stripped), so the
character classifiers below are the ASCII restrictions of Python's
`str.isalpha` / `str.isdigit` / `re` character classes `[A-Za-z]`,
`[A-Z]`, `\d`, and of `str.lower` / `str.upper` / `str.capitalize`.
Side effects (printing, file writes) are dropped; the list of lines a
generator writes to its output file is modelled as the `out` field of an
explicit state.
-/

namespace Dinocrack

/-- ASCII lowercase letter test (`[a-z]`). -/
def isLowerA (c : Char) : Bool := 97 ≤ c.toNat && c.toNat ≤ 122

/-- ASCII uppercase letter test (`[A-Z]`, Python regex `[A-Z]`). -/
def isUpperA (c : Char) : Bool := 65 ≤ c.toNat && c.toNat ≤ 90

/-- ASCII letter test (`[A-Za-z]`, Python regex `[a-zA-Z]` and
`str.isalpha` on ASCII input). -/
def isAlphaA (c : Char) : Bool := isUpperA c || isLowerA c

/-- ASCII digit test (`[0-9]`, Python regex `\d` and `str.isdigit` on
ASCII input). -/
def isDigitA (c : Char) : Bool := 48 ≤ c.toNat && c.toNat ≤ 57

/-- ASCII `str.upper` on a single character. -/
def toUpperA (c : Char) : Char :=
  if isLowerA c then Char.ofNat (c.toNat - 32) else c

/-- ASCII `str.lower` on a single character. -/
def toLowerA (c : Char) : Char :=
  if isUpperA c then Char.ofNat (c.toNat + 32) else c

/-- Python `str.capitalize()` on ASCII input: first character
uppercased, the rest lowercased. -/
def capitalizeA (w : List Char) : List Char :=
  match w with
  | [] => []
  | c :: rest => toUpperA c :: rest.map toLowerA

/-- The forward leet mapping `self.leetspeak_map` of
`DinoPassAnalyzer.__init__` (dinopass_generator.py lines 28-40); values
that are single characters in Python are wrapped into one-element lists,
as `CartesianGenerator.__init__` and `apply_leet_transformations` do. -/
def leetspeak_map : List (Char × List Char) :=
  [('a', ['@']),
   ('c', ['(', '<']),
   ('k', ['<']),
   ('e', ['3']),
   ('t', ['+']),
   ('i', ['!']),
   ('d', [')', '>']),
   ('s', ['$']),
   ('f', ['=']),
   ('j', [']']),
   ('l', ['['])]

/-- The reverse leet mapping `self.reverse_leet_map` of
`DinoPassAnalyzer.__init__` (dinopass_generator.py lines 43-57). -/
def reverse_leet_map : List (Char × List Char) :=
  [('@', ['a']),
   ('(', ['c']),
   ('<', ['c', 'k']),
   ('3', ['e']),
   ('+', ['t']),
   ('!', ['i']),
   (')', ['d']),
   ('>', ['d']),
   ('$', ['s']),
   ('=', ['f']),
   (']', ['j']),
   ('2', ['z']),
   ('[', ['l'])]

/-- All substitute symbols of the forward map, in declaration order
(the iteration of `CartesianGenerator.__init__` over
`self.leetspeak_map.items()`). -/
def allForwardSubs : List Char :=
  leetspeak_map.foldl (fun acc p => acc ++ p.2) []

/-- `self.numeric_leet_chars` of `CartesianGenerator.__init__`
(cartesian_rule.py lines 13-28): the digit-valued substitutes of the
forward map, then updated with the remaining digits
`{0,1,2,4,5,6,7,8,9}`.  Modelled as a list; only membership is used. -/
def numeric_leet_chars : List Char :=
  allForwardSubs.filter isDigitA ++ ['0', '1', '2', '4', '5', '6', '7', '8', '9']

/-- `self.symbol_leet_chars` of `CartesianGenerator.__init__`: the
non-digit substitutes of the forward map. -/
def symbol_leet_chars : List Char :=
  allForwardSubs.filter (fun c => !isDigitA c)

/-- Python `re.sub(r'\d{2}\x24', '', text)`: remove the final two
characters when both are digits (cartesian_rule.py line 39). -/
def stripTwoDigitSuffix (t : List Char) : List Char :=
  if decide (2 ≤ t.length) && (t.drop (t.length - 2)).all isDigitA then
    t.take (t.length - 2)
  else t

/-- `CartesianGenerator.has_leet_substitutions` (cartesian_rule.py lines
33-56).  Returns `(has_numeric_leet, has_symbol_leet,
leet_chars_found)`: the trailing two-digit suffix is stripped, the set
of non-alphabetic characters of the remainder is collected, and it is
intersected with the numeric and symbol leet character sets; any other
digit character also counts as numeric leet. -/
def has_leet_substitutions (text : List Char) : Bool × Bool × List Char :=
  let word_part := stripTwoDigitSuffix text
  let non_alpha_chars := (word_part.filter (fun c => !isAlphaA c)).dedup
  let numeric_leet_found := non_alpha_chars.filter (fun c => numeric_leet_chars.contains c)
  let symbol_leet_found := non_alpha_chars.filter (fun c => symbol_leet_chars.contains c)
  let other_numeric :=
    non_alpha_chars.filter (fun c => isDigitA c && !numeric_leet_chars.contains c)
  let has_numeric := !(numeric_leet_found ++ other_numeric).isEmpty
  let has_symbol := !symbol_leet_found.isEmpty
  (has_numeric, has_symbol, non_alpha_chars)

/-- `CartesianGenerator.is_valid_leet_combination` (cartesian_rule.py
lines 58-75): valid iff the text has exactly one kind of leet evidence. -/
def is_valid_leet_combination (text : List Char) : Bool :=
  match has_leet_substitutions text with
  | (has_numeric, has_symbol, _) =>
    if !has_numeric && !has_symbol then false
    else (has_numeric && !has_symbol) || (has_symbol && !has_numeric)

/-- C2: `is_valid_leet_combination` returns true iff exactly one of the
two flags returned by `has_leet_substitutions` is true (numeric XOR
symbol); it is false when neither flag is true and false when both
are. -/
theorem is_valid_leet_combination_xor (t : List Char) :
    is_valid_leet_combination t
      = Bool.xor (has_leet_substitutions t).1 (has_leet_substitutions t).2.1 := by
  rcases h : has_leet_substitutions t with ⟨n, s, cs⟩
  cases n <;> cases s <;> simp [is_valid_leet_combination, h]

/-- C6: the classifier's four documented scenarios.  `"w1ldLion42"`
shows numeric-only evidence, `"w!ldL!on42"` symbol-only,
`"wildLion42"` neither, and `"w1ldL!on42"` both. -/
theorem has_leet_substitutions_scenarios :
    (has_leet_substitutions "w1ldLion42".toList).1 = true ∧
    (has_leet_substitutions "w1ldLion42".toList).2.1 = false ∧
    (has_leet_substitutions "w!ldL!on42".toList).2.1 = true ∧
    (has_leet_substitutions "w!ldL!on42".toList).1 = false ∧
    (has_leet_substitutions "wildLion42".toList).1 = false ∧
    (has_leet_substitutions "wildLion42".toList).2.1 = false ∧
    (has_leet_substitutions "w1ldL!on42".toList).1 = true ∧
    (has_leet_substitutions "w1ldL!on42".toList).2.1 = true := by
  decide

/-! ## Token Splitter and Deleeter (dinopass_generator.py) -/

/-- Index of the first character satisfying `p`, if any (used to model
the split position of `re.split` with a lookahead pattern). -/
def findIdxA (p : Char → Bool) : List Char → Option Nat
  | [] => none
  | c :: rest => if p c then some 0 else (findIdxA p rest).map (· + 1)

/-- Attempt 1 of `analyze_password_structure` (dinopass_generator.py
line 156): `re.split` at the first internal uppercase letter
(pattern with a not-at-start lookbehind and an `[A-Z]` lookahead,
`maxsplit=1`); `none` when the body has no uppercase at position ≥ 1. -/
def splitCamel (body : List Char) : Option (List Char × List Char) :=
  match findIdxA isUpperA (body.drop 1) with
  | some i => some (body.take (i + 1), body.drop (i + 1))
  | none => none

/-- Attempt 2 of `analyze_password_structure` (line 161): `re.match` of
a leading run of letters followed by one non-letter and at least one
further character.  Because the group before the non-letter is a
maximal run of `[A-Za-z]`, the regex matches exactly when the leading
alphabetic run is non-empty and at least two characters follow it. -/
def splitLetterBoundary (body : List Char) : Option (List Char × List Char) :=
  let a := body.takeWhile isAlphaA
  let rest := body.dropWhile isAlphaA
  match a, rest with
  | [], _ => none
  | _, [] => none
  | _, [_] => none
  | _, _ => some (a, rest)

/-- The prioritized splitting strategy of `analyze_password_structure`
(lines 156-170): camelCase boundary, then letter/non-letter boundary,
then midpoint with the left side getting `max 2 (length / 2)`
characters provided the right side is non-empty. -/
def split_body (body : List Char) : Option (List Char × List Char) :=
  match splitCamel body with
  | some lr => some lr
  | none =>
    match splitLetterBoundary body with
    | some lr => some lr
    | none =>
      let mid := max 2 (body.length / 2)
      if body.length ≤ mid then none
      else some (body.take mid, body.drop mid)

/-- Python `cand.replace(leet, n)` for single characters: replace every
occurrence. -/
def replaceAll (cand : List Char) (leet n : Char) : List Char :=
  cand.map (fun c => if c == leet then n else c)

/-- One iteration of the substitution loop of `deleet_word`
(dinopass_generator.py lines 111-121): every candidate containing the
leet symbol is replaced by one copy per candidate letter.  The Python
candidate set is modelled as a deduplicated list. -/
def deleetStep (leet : Char) (normals : List Char) (cands : List (List Char)) :
    List (List Char) :=
  (cands.flatMap (fun cand =>
    if cand.contains leet then normals.map (replaceAll cand leet) else [cand])).dedup

/-- `DinoPassAnalyzer.deleet_word` (dinopass_generator.py lines
101-133), parameterized by the external dictionary collaborator
`spell` (the SpellChecker membership test).  `valid_candidates[0]` and
`next(iter(candidates))` pick an element of a Python set in iteration
order; the model picks the head of the deduplicated list, a
deterministic representative of the same arbitrary choice. -/
def deleet_word (spell : List Char → Bool) (word : List Char) : List Char :=
  let cands0 : List (List Char) := [word.map toLowerA]
  let apply_spellcheck :=
    reverse_leet_map.any (fun p => decide (1 < p.2.length) && word.contains p.1)
  let afterSubs := reverse_leet_map.foldl (fun cs p => deleetStep p.1 p.2 cs) cands0
  let candidates := (afterSubs.map (fun c => c.filter isLowerA)).dedup
  let fallback :=
    match candidates with
    | c :: _ => c
    | [] => word
  if apply_spellcheck then
    match candidates.filter spell with
    | v :: _ => v
    | [] => fallback
  else fallback

/-- The Password Analysis Record returned by
`analyze_password_structure` (dinopass_generator.py lines 183-189). -/
structure Analysis where
  adjective : List Char
  noun : List Char
  digits : List Char
  original : List Char
  clean_form : List Char
deriving DecidableEq

/-- `DinoPassAnalyzer.analyze_password_structure` (dinopass_generator.py
lines 135-189), parameterized by the dictionary collaborator used by
`deleet_word`.  The final two characters are always stripped as the
suffix; the body is split, each side deleeted and lowercased; fragments
shorter than two characters fail the analysis. -/
def analyze_password_structure (spell : List Char → Bool) (password : List Char) :
    Option Analysis :=
  if password.length < 4 then none
  else
    let suffix := password.drop (password.length - 2)
    let body := password.take (password.length - 2)
    match split_body body with
    | none => none
    | some (left, right) =>
      let left_clean := (deleet_word spell left).map toLowerA
      let right_clean := (deleet_word spell right).map toLowerA
      if left_clean.length < 2 || right_clean.length < 2 then none
      else
        let digits := if suffix.all isDigitA then suffix else []
        some { adjective := left_clean
               noun := right_clean
               digits := digits
               original := password
               clean_form := left_clean ++ capitalizeA right_clean ++ digits }

/-! ## Leet transformations (dinopass_generator.py lines 191-231) -/

/-- The capitalization applied to each variant by
`apply_leet_transformations`: uppercase the first character when it is
alphabetic, otherwise leave the variant unchanged. -/
def capFirst (w : List Char) : List Char :=
  match w with
  | [] => []
  | c :: rest => if isAlphaA c then toUpperA c :: rest else c :: rest

/-- Strict lexicographic order on code points, Python's `<` on
strings. -/
def lexLt : List Char → List Char → Bool
  | [], [] => false
  | [], _ :: _ => true
  | _ :: _, [] => false
  | x :: xs, y :: ys =>
    if x.toNat < y.toNat then true
    else if y.toNat < x.toNat then false
    else lexLt xs ys

/-- Insertion step of the sorting model for Python `sorted`. -/
def insertLex (x : List Char) : List (List Char) → List (List Char)
  | [] => [x]
  | y :: ys => if lexLt y x then y :: insertLex x ys else x :: y :: ys

/-- Python `sorted` on a list of strings (insertion sort by code
points). -/
def sortLex (l : List (List Char)) : List (List Char) :=
  l.foldr insertLex []

/-- `DinoPassAnalyzer.apply_leet_transformations` (dinopass_generator.py
lines 191-231): the variation set contains the original word with its
first character uppercased (when alphabetic), plus, for every position
of the lowercased word carrying a leet-mappable letter and every
substitute of that letter, the lowercased word with exactly that one
position substituted and the capitalization rule applied.  The Python
set is modelled as a deduplicated list, returned sorted. -/
def apply_leet_transformations (word : List Char) : List (List Char) :=
  if word.isEmpty then [word]
  else
    let word_lower := word.map toLowerA
    let base := capFirst word
    let subs := word_lower.enum.flatMap (fun ie =>
      match leetspeak_map.lookup ie.2 with
      | none => []
      | some leet_options =>
        leet_options.map (fun leet_char => capFirst (word_lower.set ie.1 leet_char)))
    sortLex ((base :: subs).dedup)

/-! ## Combinatorial Generator (cartesian_rule.py) -/

/-- The mutable state threaded through a generation run: the `seen`
set, the sequence of lines written to the output file, the two
counters, and a flag modelling the early `return` taken when
`max_results` is reached. -/
structure GenState where
  seen : List (List Char)
  out : List (List Char)
  total_written : Nat
  rejected_mixed : Nat
  halted : Bool
deriving DecidableEq

/-- The state at the start of a generation run. -/
def initGenState : GenState :=
  { seen := [], out := [], total_written := 0, rejected_mixed := 0, halted := false }

/-- `CartesianGenerator.process_candidate` (cartesian_rule.py lines
77-101): reject invalid leet combinations (counting them), skip
duplicates when deduplication is on, otherwise record the candidate as
seen and write it. -/
def process_candidate (candidate : List Char) (dedupe : Bool) (st : GenState) :
    GenState :=
  if !is_valid_leet_combination candidate then
    { st with rejected_mixed := st.rejected_mixed + 1 }
  else if dedupe && st.seen.contains candidate then st
  else
    { st with
        seen := candidate :: st.seen
        out := st.out ++ [candidate]
        total_written := st.total_written + 1 }

/-- Python truthiness of the `max_results and total_written >=
max_results` guard: `None` and `0` never trigger the cutoff. -/
def capReached (max_results : Option Nat) (total_written : Nat) : Bool :=
  match max_results with
  | none => false
  | some m => if m == 0 then false else decide (m ≤ total_written)

/-- The early-return check performed after each call to
`process_candidate`: once the result cap is reached the run stops. -/
def haltCheck (max_results : Option Nat) (st : GenState) : GenState :=
  if capReached max_results st.total_written then { st with halted := true } else st

/-- The body of the innermost loop shared by both generators: skip
everything once the run has returned early, apply the length filter,
run `process_candidate`, then take the early return when the result cap
is reached. -/
def emitCandidate (min_length max_length : Nat) (max_results : Option Nat)
    (dedupe : Bool) (candidate : List Char) (st : GenState) : GenState :=
  if st.halted then st
  else if decide (max_length < candidate.length) || decide (candidate.length < min_length) then st
  else haltCheck max_results (process_candidate candidate dedupe st)

/-- The Word Variation Set computed by
`CartesianGenerator.get_word_variations` (cartesian_rule.py lines
103-141). -/
structure WordVariations where
  base : List (List Char)
  numeric_leet : List (List Char)
  symbol_leet : List (List Char)
deriving DecidableEq

/-- `CartesianGenerator.get_word_variations`: the base form is the
lowercased word for adjectives and the capitalized word for nouns;
every leet variant different from the original word (lowercased again
for adjectives) is bucketed by classifying `variant + "00"` with
`has_leet_substitutions`, skipping variants with mixed or no
evidence. -/
def get_word_variations (word : List Char) (is_adjective : Bool) : WordVariations :=
  let base := if is_adjective then [word.map toLowerA] else [capitalizeA word]
  (apply_leet_transformations word).foldl
    (fun vs variant =>
      if variant == word then vs
      else
        let v := if is_adjective then variant.map toLowerA else variant
        match has_leet_substitutions (v ++ ['0', '0']) with
        | (has_numeric, has_symbol, _) =>
          if has_numeric && !has_symbol then
            { vs with numeric_leet := vs.numeric_leet ++ [v] }
          else if has_symbol && !has_numeric then
            { vs with symbol_leet := vs.symbol_leet ++ [v] }
          else vs)
    { base := base, numeric_leet := [], symbol_leet := [] }

/-- The variation type tags used by the generators' combination
tables. -/
inductive VarType
  | base
  | numeric_leet
  | symbol_leet
deriving DecidableEq

/-- Bucket selection for a variation type tag. -/
def pickVar (vs : WordVariations) : VarType → List (List Char)
  | VarType.base => vs.base
  | VarType.numeric_leet => vs.numeric_leet
  | VarType.symbol_leet => vs.symbol_leet

/-- The `valid_combinations` table of `generate_comprehensive_wordlist`
(cartesian_rule.py lines 211-216): never base+base, never two leet
fragments. -/
def valid_combinations : List (VarType × VarType) :=
  [(VarType.base, VarType.numeric_leet),
   (VarType.base, VarType.symbol_leet),
   (VarType.numeric_leet, VarType.base),
   (VarType.symbol_leet, VarType.base)]

/-- Python `f-string` zero-padded two-digit formatting of a natural
number. -/
def twoDigit (n : Nat) : List Char :=
  if n < 10 then '0' :: Nat.toDigits 10 n else Nat.toDigits 10 n

/-- `CartesianGenerator.generate_comprehensive_wordlist`
(cartesian_rule.py lines 143-250).  The adjective and noun sets are
part of the object state in Python; they are passed here as lists and
iterated as `sorted(set)`.  The `include_base_forms` and
`include_leet_variants` parameters of the source are never read in its
body and are omitted; printing, the `total_combinations` estimate and
the output file handle are side effects and are dropped, the written
lines being the `out` field of the result. -/
def generate_comprehensive_wordlist (adjectives nouns : List (List Char))
    (digits_range : List Nat) (min_length max_length : Nat)
    (max_results : Option Nat) (dedupe : Bool) : GenState :=
  if adjectives.isEmpty || nouns.isEmpty then initGenState
  else
    (sortLex adjectives.dedup).foldl
      (fun st base_adj =>
        let adj_variations := get_word_variations base_adj true
        (sortLex nouns.dedup).foldl
          (fun st base_noun =>
            let noun_variations := get_word_variations base_noun false
            valid_combinations.foldl
              (fun st types =>
                (pickVar adj_variations types.1).foldl
                  (fun st adj_var =>
                    (pickVar noun_variations types.2).foldl
                      (fun st noun_var =>
                        digits_range.foldl
                          (fun st n =>
                            emitCandidate min_length max_length max_results dedupe
                              (adj_var ++ noun_var ++ twoDigit n) st)
                          st)
                      st)
                  st)
              st)
          st)
      initGenState

/-- `CartesianGenerator.generate_cartesian_with_rules`
(cartesian_rule.py lines 252-341): the `valid_pairs` list is built from
the four allowed bucket combinations in source order, then each pair is
expanded over the digit range. -/
def generate_cartesian_with_rules (adjectives nouns : List (List Char))
    (digits_range : List Nat) (min_length max_length : Nat)
    (max_results : Option Nat) (dedupe : Bool) : GenState :=
  if adjectives.isEmpty || nouns.isEmpty then initGenState
  else
    (sortLex adjectives.dedup).foldl
      (fun st base_adj =>
        let adj_variations := get_word_variations base_adj true
        (sortLex nouns.dedup).foldl
          (fun st base_noun =>
            let noun_variations := get_word_variations base_noun false
            let valid_pairs :=
              (adj_variations.base.flatMap (fun a =>
                noun_variations.numeric_leet.map (fun n => (a, n)))) ++
              (adj_variations.base.flatMap (fun a =>
                noun_variations.symbol_leet.map (fun n => (a, n)))) ++
              (adj_variations.numeric_leet.flatMap (fun a =>
                noun_variations.base.map (fun n => (a, n)))) ++
              (adj_variations.symbol_leet.flatMap (fun a =>
                noun_variations.base.map (fun n => (a, n))))
            valid_pairs.foldl
              (fun st pair =>
                digits_range.foldl
                  (fun st n =>
                    emitCandidate min_length max_length max_results dedupe
                      (pair.1 ++ pair.2 ++ twoDigit n) st)
                  st)
              st)
          st)
      initGenState

/-! ## Corpus Analyzer (dinopass_generator.py lines 234-292) -/

/-- The vocabulary and analysis log owned by the analyzer object.  The
Python sets of adjectives and nouns are modelled as lists inserted
without duplication. -/
structure AnalyzerState where
  adjectives : List (List Char)
  nouns : List (List Char)
  password_patterns : List Analysis
deriving DecidableEq

/-- Python `set.add`: insert unless already a member. -/
def insertSet (x : List Char) (l : List (List Char)) : List (List Char) :=
  if l.contains x then l else x :: l

/-- One iteration of the password loop of `analyze_corpus`
(dinopass_generator.py lines 256-269): on a successful analysis the
adjective and noun are inserted and the record appended to the log; on
failure the password joins the `failed_patterns` list. -/
def corpusStep (spell : List Char → Bool)
    (acc : AnalyzerState × Nat × List (List Char)) (password : List Char) :
    AnalyzerState × Nat × List (List Char) :=
  match analyze_password_structure spell password with
  | some analysis =>
    (⟨insertSet analysis.adjective acc.1.adjectives,
      insertSet analysis.noun acc.1.nouns,
      acc.1.password_patterns ++ [analysis]⟩,
     acc.2.1 + 1, acc.2.2)
  | none => (acc.1, acc.2.1, acc.2.2 ++ [password])

/-- The counts returned by `analyze_corpus` (lines 287-292). -/
structure CorpusStats where
  successful : Nat
  failed : Nat
  new_adjectives : Nat
  new_nouns : Nat
deriving DecidableEq

/-- `DinoPassAnalyzer.analyze_corpus` (dinopass_generator.py lines
234-292): optionally clear the vocabulary, fold the password loop, and
report the success/failure counts together with the growth of the two
vocabulary sets. -/
def analyze_corpus (spell : List Char → Bool) (passwords : List (List Char))
    (append_mode : Bool) (st0 : AnalyzerState) : AnalyzerState × CorpusStats :=
  let st1 := if append_mode then st0 else ⟨[], [], []⟩
  let initial_adj_count := st1.adjectives.length
  let initial_noun_count := st1.nouns.length
  let result := passwords.foldl (corpusStep spell) (st1, 0, [])
  (result.1,
   { successful := result.2.1
     failed := result.2.2.length
     new_adjectives := result.1.adjectives.length - initial_adj_count
     new_nouns := result.1.nouns.length - initial_noun_count })

/-! ## Invariants of the generation loops -/

/-- A predicate preserved by every fold step holds of the fold. -/
theorem foldl_preserve {α β : Type} {P : β → Prop} (f : β → α → β) (l : List α)
    (b : β) (hb : P b) (hf : ∀ b a, P b → P (f b a)) : P (l.foldl f b) := by
  induction l generalizing b with
  | nil => exact hb
  | cons a l ih => exact ih _ (hf b a hb)

/-- `process_candidate` either leaves the written lines and the seen
set unchanged, or appends a candidate that passed the validity check
and (under deduplication) was not seen before. -/
theorem process_candidate_spec (c : List Char) (d : Bool) (st : GenState) :
    ((process_candidate c d st).out = st.out ∧ (process_candidate c d st).seen = st.seen) ∨
    (is_valid_leet_combination c = true ∧
     (d = true → c ∉ st.seen) ∧
     (process_candidate c d st).out = st.out ++ [c] ∧
     (process_candidate c d st).seen = c :: st.seen) := by
  unfold process_candidate
  split
  · exact Or.inl ⟨rfl, rfl⟩
  · rename_i hvalid
    split
    · exact Or.inl ⟨rfl, rfl⟩
    · rename_i hdup
      refine Or.inr ⟨?_, ?_, rfl, rfl⟩
      · simpa using hvalid
      · intro hd
        subst hd
        simpa using hdup

/-- `emitCandidate` either leaves the written lines and the seen set
unchanged, or appends a candidate that is valid, within the length
bounds, and (under deduplication) not seen before. -/
theorem emitCandidate_spec (mi ma : Nat) (mr : Option Nat) (d : Bool)
    (c : List Char) (st : GenState) :
    ((emitCandidate mi ma mr d c st).out = st.out ∧
     (emitCandidate mi ma mr d c st).seen = st.seen) ∨
    (is_valid_leet_combination c = true ∧
     mi ≤ c.length ∧ c.length ≤ ma ∧
     (d = true → c ∉ st.seen) ∧
     (emitCandidate mi ma mr d c st).out = st.out ++ [c] ∧
     (emitCandidate mi ma mr d c st).seen = c :: st.seen) := by
  unfold emitCandidate
  split
  · exact Or.inl ⟨rfl, rfl⟩
  · split
    · exact Or.inl ⟨rfl, rfl⟩
    · rename_i hlen
      have hb : c.length ≤ ma ∧ mi ≤ c.length := by simpa using hlen
      have hout : ∀ s : GenState, (haltCheck mr s).out = s.out := by
        intro s; unfold haltCheck; split <;> rfl
      have hseen : ∀ s : GenState, (haltCheck mr s).seen = s.seen := by
        intro s; unfold haltCheck; split <;> rfl
      rcases process_candidate_spec c d st with ⟨ho, hs⟩ | ⟨hv, hns, ho, hs⟩
      · exact Or.inl ⟨(hout _).trans ho, (hseen _).trans hs⟩
      · exact Or.inr ⟨hv, hb.2, hb.1, hns, (hout _).trans ho, (hseen _).trans hs⟩

/-- Induction principle for `generate_comprehensive_wordlist`: any
state predicate holding initially and preserved by `emitCandidate`
holds of the final state. -/
theorem generate_comprehensive_induct (P : GenState → Prop)
    (adjectives nouns : List (List Char)) (digits_range : List Nat)
    (min_length max_length : Nat) (max_results : Option Nat) (dedupe : Bool)
    (hinit : P initGenState)
    (hstep : ∀ st c, P st →
      P (emitCandidate min_length max_length max_results dedupe c st)) :
    P (generate_comprehensive_wordlist adjectives nouns digits_range
        min_length max_length max_results dedupe) := by
  unfold generate_comprehensive_wordlist
  split
  · exact hinit
  · refine foldl_preserve _ _ _ hinit ?_
    intro st adj h
    refine foldl_preserve _ _ _ h ?_
    intro st1 noun h1
    refine foldl_preserve _ _ _ h1 ?_
    intro st2 types h2
    refine foldl_preserve _ _ _ h2 ?_
    intro st3 adj_var h3
    refine foldl_preserve _ _ _ h3 ?_
    intro st4 noun_var h4
    refine foldl_preserve _ _ _ h4 ?_
    intro st5 n h5
    exact hstep _ _ h5

/-- Induction principle for `generate_cartesian_with_rules`. -/
theorem generate_cartesian_induct (P : GenState → Prop)
    (adjectives nouns : List (List Char)) (digits_range : List Nat)
    (min_length max_length : Nat) (max_results : Option Nat) (dedupe : Bool)
    (hinit : P initGenState)
    (hstep : ∀ st c, P st →
      P (emitCandidate min_length max_length max_results dedupe c st)) :
    P (generate_cartesian_with_rules adjectives nouns digits_range
        min_length max_length max_results dedupe) := by
  unfold generate_cartesian_with_rules
  split
  · exact hinit
  · refine foldl_preserve _ _ _ hinit ?_
    intro st adj h
    refine foldl_preserve _ _ _ h ?_
    intro st1 noun h1
    refine foldl_preserve _ _ _ h1 ?_
    intro st2 pair h2
    refine foldl_preserve _ _ _ h2 ?_
    intro st3 n h3
    exact hstep _ _ h3

/-- The validity invariant is preserved by each emission. -/
theorem emit_preserves_valid (mi ma : Nat) (mr : Option Nat) (d : Bool)
    (st : GenState) (c : List Char)
    (h : ∀ x ∈ st.out, is_valid_leet_combination x = true) :
    ∀ x ∈ (emitCandidate mi ma mr d c st).out, is_valid_leet_combination x = true := by
  rcases emitCandidate_spec mi ma mr d c st with ⟨ho, _⟩ | ⟨hv, _, _, _, ho, _⟩
  · rw [ho]; exact h
  · rw [ho]
    intro x hx
    rcases List.mem_append.mp hx with hx | hx
    · exact h x hx
    · rw [List.mem_singleton.mp hx]; exact hv

/-- C1: every candidate written by `generate_comprehensive_wordlist`
and by `generate_cartesian_with_rules` satisfies
`is_valid_leet_combination`: no emitted candidate is base+base and none
mixes numeric-leet and symbol-leet evidence. -/
theorem generators_emit_only_valid (adjectives nouns : List (List Char))
    (digits_range : List Nat) (min_length max_length : Nat)
    (max_results : Option Nat) (dedupe : Bool) :
    (∀ c ∈ (generate_comprehensive_wordlist adjectives nouns digits_range
        min_length max_length max_results dedupe).out,
      is_valid_leet_combination c = true) ∧
    (∀ c ∈ (generate_cartesian_with_rules adjectives nouns digits_range
        min_length max_length max_results dedupe).out,
      is_valid_leet_combination c = true) := by
  constructor
  · exact generate_comprehensive_induct
      (fun st => ∀ x ∈ st.out, is_valid_leet_combination x = true)
      adjectives nouns digits_range min_length max_length max_results dedupe
      (by intro x hx; simp [initGenState] at hx)
      (fun st c h => emit_preserves_valid _ _ _ _ st c h)
  · exact generate_cartesian_induct
      (fun st => ∀ x ∈ st.out, is_valid_leet_combination x = true)
      adjectives nouns digits_range min_length max_length max_results dedupe
      (by intro x hx; simp [initGenState] at hx)
      (fun st c h => emit_preserves_valid _ _ _ _ st c h)

/-- Witness for C1: on the vocabulary `{wild} × {lion}` with suffix 42
the comprehensive generator emits `w!ldLion42`, and the theorem yields
its validity. -/
theorem generators_emit_only_valid_witness :
    "w!ldLion42".toList ∈ (generate_comprehensive_wordlist ["wild".toList]
      ["lion".toList] [42] 7 15 none true).out ∧
    is_valid_leet_combination "w!ldLion42".toList = true :=
  ⟨by decide,
   (generators_emit_only_valid ["wild".toList] ["lion".toList] [42] 7 15 none true).1
     "w!ldLion42".toList (by decide)⟩

/-- The length-bounds invariant is preserved by each emission. -/
theorem emit_preserves_bounds (mi ma : Nat) (mr : Option Nat) (d : Bool)
    (st : GenState) (c : List Char)
    (h : ∀ x ∈ st.out, mi ≤ x.length ∧ x.length ≤ ma) :
    ∀ x ∈ (emitCandidate mi ma mr d c st).out, mi ≤ x.length ∧ x.length ≤ ma := by
  rcases emitCandidate_spec mi ma mr d c st with ⟨ho, _⟩ | ⟨_, hmi, hma, _, ho, _⟩
  · rw [ho]; exact h
  · rw [ho]
    intro x hx
    rcases List.mem_append.mp hx with hx | hx
    · exact h x hx
    · rw [List.mem_singleton.mp hx]; exact ⟨hmi, hma⟩

/-- C9: every candidate emitted by `generate_comprehensive_wordlist`
and by `generate_cartesian_with_rules` has total length between
`min_length` and `max_length`. -/
theorem generators_respect_length_bounds (adjectives nouns : List (List Char))
    (digits_range : List Nat) (min_length max_length : Nat)
    (max_results : Option Nat) (dedupe : Bool) :
    (∀ c ∈ (generate_comprehensive_wordlist adjectives nouns digits_range
        min_length max_length max_results dedupe).out,
      min_length ≤ c.length ∧ c.length ≤ max_length) ∧
    (∀ c ∈ (generate_cartesian_with_rules adjectives nouns digits_range
        min_length max_length max_results dedupe).out,
      min_length ≤ c.length ∧ c.length ≤ max_length) := by
  constructor
  · exact generate_comprehensive_induct
      (fun st => ∀ x ∈ st.out, min_length ≤ x.length ∧ x.length ≤ max_length)
      adjectives nouns digits_range min_length max_length max_results dedupe
      (by intro x hx; simp [initGenState] at hx)
      (fun st c h => emit_preserves_bounds _ _ _ _ st c h)
  · exact generate_cartesian_induct
      (fun st => ∀ x ∈ st.out, min_length ≤ x.length ∧ x.length ≤ max_length)
      adjectives nouns digits_range min_length max_length max_results dedupe
      (by intro x hx; simp [initGenState] at hx)
      (fun st c h => emit_preserves_bounds _ _ _ _ st c h)

/-- Witness for C9: `jad3Cat05`, emitted on the vocabulary
`{jade} × {cat}` with suffix 5, has length between 7 and 15. -/
theorem generators_respect_length_bounds_witness :
    "jad3Cat05".toList ∈ (generate_comprehensive_wordlist ["jade".toList]
      ["cat".toList] [5] 7 15 none true).out ∧
    (7 ≤ "jad3Cat05".toList.length ∧ "jad3Cat05".toList.length ≤ 15) :=
  ⟨by decide,
   (generators_respect_length_bounds ["jade".toList] ["cat".toList] [5] 7 15 none true).1
     "jad3Cat05".toList (by decide)⟩

/-- The no-duplicates invariant: the written lines are distinct and all
recorded in the seen set.  Preserved by each emission when
deduplication is on. -/
theorem emit_preserves_nodup (mi ma : Nat) (mr : Option Nat)
    (st : GenState) (c : List Char)
    (h : st.out.Nodup ∧ ∀ x ∈ st.out, x ∈ st.seen) :
    (emitCandidate mi ma mr true c st).out.Nodup ∧
      ∀ x ∈ (emitCandidate mi ma mr true c st).out,
        x ∈ (emitCandidate mi ma mr true c st).seen := by
  rcases emitCandidate_spec mi ma mr true c st with ⟨ho, hs⟩ | ⟨_, _, _, hns, ho, hs⟩
  · rw [ho, hs]; exact h
  · rw [ho, hs]
    have hcnot : c ∉ st.out := fun hc => hns rfl (h.2 c hc)
    constructor
    · refine List.Nodup.append h.1 (List.nodup_singleton c) ?_
      intro x hx hx'
      rw [List.mem_singleton.mp hx'] at hx
      exact hcnot hx
    · intro x hx
      rcases List.mem_append.mp hx with hx | hx
      · exact List.mem_cons_of_mem c (h.2 x hx)
      · rw [List.mem_singleton.mp hx]
        exact List.mem_cons_self c st.seen

/-- C10: with deduplication enabled, no candidate appears twice in the
output of a single run of `generate_comprehensive_wordlist` or of
`generate_cartesian_with_rules`. -/
theorem generators_dedupe_no_duplicates (adjectives nouns : List (List Char))
    (digits_range : List Nat) (min_length max_length : Nat)
    (max_results : Option Nat) :
    (generate_comprehensive_wordlist adjectives nouns digits_range
        min_length max_length max_results true).out.Nodup ∧
    (generate_cartesian_with_rules adjectives nouns digits_range
        min_length max_length max_results true).out.Nodup := by
  constructor
  · exact (generate_comprehensive_induct
      (fun st => st.out.Nodup ∧ ∀ x ∈ st.out, x ∈ st.seen)
      adjectives nouns digits_range min_length max_length max_results true
      (by constructor
          · exact List.nodup_nil
          · intro x hx; simp [initGenState] at hx)
      (fun st c h => emit_preserves_nodup _ _ _ st c h)).1
  · exact (generate_cartesian_induct
      (fun st => st.out.Nodup ∧ ∀ x ∈ st.out, x ∈ st.seen)
      adjectives nouns digits_range min_length max_length max_results true
      (by constructor
          · exact List.nodup_nil
          · intro x hx; simp [initGenState] at hx)
      (fun st c h => emit_preserves_nodup _ _ _ st c h)).1

/-! ## Failure handling of the Corpus Analyzer -/

/-- The failed-password list accumulated by the password loop of
`analyze_corpus` is exactly the sublist of passwords whose analysis
returned nothing. -/
theorem corpus_foldl_failed (spell : List Char → Bool) (l : List (List Char))
    (acc : AnalyzerState × Nat × List (List Char)) :
    (l.foldl (corpusStep spell) acc).2.2 =
      acc.2.2 ++ l.filter (fun p => (analyze_password_structure spell p).isNone) := by
  induction l generalizing acc with
  | nil => simp
  | cons p l ih =>
    rw [List.foldl_cons, ih]
    unfold corpusStep
    cases h : analyze_password_structure spell p <;>
      simp [h, List.filter_cons]

/-- C8: a password that fails to parse is skipped with no partial
insertion — the password loop of `analyze_corpus` leaves the adjective
set, the noun set and the analysis log unchanged and only appends the
password to the failure list — and `analyze_corpus` reports as `failed`
exactly the number of passwords of the batch whose analysis failed.
(The embedded functions are total, so no exception can be raised.) -/
theorem analyze_corpus_skips_failures (spell : List Char → Bool) :
    (∀ (st : AnalyzerState) (succ : Nat) (failed : List (List Char)) (p : List Char),
      analyze_password_structure spell p = none →
      corpusStep spell (st, succ, failed) p = (st, succ, failed ++ [p])) ∧
    (∀ (passwords : List (List Char)) (append_mode : Bool) (st0 : AnalyzerState),
      (analyze_corpus spell passwords append_mode st0).2.failed =
        (passwords.filter (fun p => (analyze_password_structure spell p).isNone)).length) := by
  constructor
  · intro st succ failed p h
    unfold corpusStep
    rw [h]
  · intro passwords append_mode st0
    dsimp only [analyze_corpus]
    rw [corpus_foldl_failed]
    simp

/-- Witness for C8: the two-character password `ab` fails to parse, and
the password loop records it as a failure while leaving the empty
analyzer state untouched. -/
theorem analyze_corpus_skips_failures_witness :
    analyze_password_structure (fun _ => false) "ab".toList = none ∧
    corpusStep (fun _ => false) (⟨[], [], []⟩, 0, []) "ab".toList
      = (⟨[], [], []⟩, 0, ["ab".toList]) :=
  ⟨by decide,
   (analyze_corpus_skips_failures (fun _ => false)).1 ⟨[], [], []⟩ 0 [] "ab".toList
     (by decide)⟩

/-! ## Character-level lemmas for the ASCII case functions -/

/-- Coercion of `Char.ofNat` back to `Nat` on valid code points. -/
theorem toNat_ofNat_valid (n : Nat) (h : Nat.isValidChar n) :
    (Char.ofNat n).toNat = n := by
  unfold Char.ofNat
  rw [dif_pos h]
  unfold Char.ofNatAux Char.toNat
  rfl

/-- Lowercasing after uppercasing is lowercasing. -/
theorem toLowerA_toUpperA (c : Char) : toLowerA (toUpperA c) = toLowerA c := by
  unfold toUpperA
  split
  · rename_i h
    have hn : 97 ≤ c.toNat ∧ c.toNat ≤ 122 := by
      simpa [isLowerA] using h
    have hv : Nat.isValidChar (c.toNat - 32) := Or.inl (by omega)
    have ht : (Char.ofNat (c.toNat - 32)).toNat = c.toNat - 32 := toNat_ofNat_valid _ hv
    unfold toLowerA
    have hu : isUpperA (Char.ofNat (c.toNat - 32)) = true := by
      simp [isUpperA, ht]; omega
    have hu2 : isUpperA c = false := by simp [isUpperA]; omega
    rw [if_pos hu, if_neg (by simp [hu2]), ht]
    have harith : c.toNat - 32 + 32 = c.toNat := by omega
    rw [harith, Char.ofNat_toNat]
  · rfl

/-- `toLowerA` is idempotent. -/
theorem toLowerA_idem (c : Char) : toLowerA (toLowerA c) = toLowerA c := by
  unfold toLowerA
  split
  · rename_i h
    have hn : 65 ≤ c.toNat ∧ c.toNat ≤ 90 := by simpa [isUpperA] using h
    have hv : Nat.isValidChar (c.toNat + 32) := Or.inl (by omega)
    have ht : (Char.ofNat (c.toNat + 32)).toNat = c.toNat + 32 := toNat_ofNat_valid _ hv
    rw [if_neg]
    simp [isUpperA, ht]
    omega
  · rfl

/-- Lowercasing erases the capitalization performed by `capFirst`. -/
theorem map_toLowerA_capFirst (w : List Char) :
    (capFirst w).map toLowerA = w.map toLowerA := by
  cases w with
  | nil => rfl
  | cons c rest =>
    simp only [capFirst]
    split
    · simp [toLowerA_toUpperA]
    · rfl

/-- `capFirst` preserves length. -/
theorem capFirst_length (w : List Char) : (capFirst w).length = w.length := by
  cases w with
  | nil => rfl
  | cons c rest =>
    simp only [capFirst]
    split <;> rfl

/-! ## Sorting and membership lemmas -/

/-- Membership through the insertion step of `sortLex`. -/
theorem mem_insertLex (a x : List Char) (l : List (List Char)) :
    a ∈ insertLex x l ↔ a = x ∨ a ∈ l := by
  induction l with
  | nil => simp [insertLex]
  | cons y ys ih =>
    unfold insertLex
    split
    · simp only [List.mem_cons, ih]
      tauto
    · simp only [List.mem_cons]

/-- `sortLex` preserves membership. -/
theorem mem_sortLex (a : List Char) (l : List (List Char)) :
    a ∈ sortLex l ↔ a ∈ l := by
  induction l with
  | nil => simp [sortLex]
  | cons x xs ih =>
    show a ∈ insertLex x (sortLex xs) ↔ _
    rw [mem_insertLex, ih]
    simp

/-! ## Single-substitution shape of the leet variants (C4) -/

/-- Number of positions at which two strings differ (compared on their
common prefix of positions). -/
def diffPositions (a b : List Char) : Nat :=
  (a.zip b).countP (fun p => decide (p.1 ≠ p.2))

/-- A string differs from itself at no position. -/
theorem diffPositions_self (l : List Char) : diffPositions l l = 0 := by
  induction l with
  | nil => rfl
  | cons c t ih =>
    unfold diffPositions at ih ⊢
    rw [List.zip_cons_cons, List.countP_cons, ih]
    simp

/-- Overwriting one position changes a string at no more than one
position. -/
theorem diffPositions_set_le_one (l : List Char) (i : Nat) (x : Char) :
    diffPositions (l.set i x) l ≤ 1 := by
  induction l generalizing i with
  | nil => simp [diffPositions]
  | cons c t ih =>
    cases i with
    | zero =>
      unfold diffPositions
      simp only [List.set_cons_zero, List.zip_cons_cons, List.countP_cons]
      have h0 : diffPositions t t = 0 := diffPositions_self t
      unfold diffPositions at h0
      rw [h0]
      split <;> simp
    | succ j =>
      unfold diffPositions
      rw [List.set_cons_succ, List.zip_cons_cons, List.countP_cons]
      have h1 := ih j
      unfold diffPositions at h1
      have h2 : decide (((c, c) : Char × Char).1 ≠ ((c, c) : Char × Char).2) = false := by
        simp
      rw [h2]
      simpa using h1

/-- Every element of `apply_leet_transformations word` has the length
of `word` and, compared case-insensitively, differs from `word` at no
more than one position (where it carries a substitute symbol). -/
theorem apply_leet_transformations_single_substitution (word v : List Char)
    (hv : v ∈ apply_leet_transformations word) :
    v.length = word.length ∧
      diffPositions (v.map toLowerA) (word.map toLowerA) ≤ 1 := by
  unfold apply_leet_transformations at hv
  split at hv
  · rename_i hw
    rw [List.isEmpty_iff.mp hw] at *
    simp at hv
    subst hv
    exact ⟨rfl, by simp [diffPositions]⟩
  · rw [mem_sortLex, List.mem_dedup, List.mem_cons] at hv
    rcases hv with hv | hv
    · subst hv
      constructor
      · exact capFirst_length word
      · rw [map_toLowerA_capFirst]
        exact Nat.le_of_eq (diffPositions_self _) |>.trans (Nat.zero_le 1) |>.trans (Nat.le_refl 1)
    · rw [List.mem_flatMap] at hv
      obtain ⟨ie, hie, hv⟩ := hv
      cases hlk : leetspeak_map.lookup ie.2 with
      | none => rw [hlk] at hv; simp at hv
      | some opts =>
        rw [hlk] at hv
        rw [List.mem_map] at hv
        obtain ⟨lc, _, hv⟩ := hv
        subst hv
        constructor
        · rw [capFirst_length]
          simp
        · rw [map_toLowerA_capFirst, List.map_set]
          have hmm : (word.map toLowerA).map toLowerA = word.map toLowerA := by
            rw [List.map_map]
            exact List.map_congr_left (fun c _ => toLowerA_idem c)
          rw [hmm]
          exact diffPositions_set_le_one _ _ _

/-- C4 counterexample: `apply_leet_transformations("jade")` contains
neither `ja]e` (the symbol `]` substitutes only `j`, never `d`) nor the
uncapitalized `jad3` (alphabetic-initial variants are capitalized), so
the claimed memberships fail. -/
theorem apply_leet_jade_counterexample :
    "ja]e".toList ∉ apply_leet_transformations "jade".toList ∧
    "jad3".toList ∉ apply_leet_transformations "jade".toList := by
  decide

/-- C4 amended: `apply_leet_transformations("jade")` contains `]ade`,
`Ja)e`, `Ja>e` and `Jad3` as separate elements (the `d` and `e`
substitutions are capitalized since their variants start with an
alphabetic character); it contains no two-substitution variant such as
`]a]e`, and in general every returned variant differs from the input
word, compared case-insensitively, at no more than one position. -/
theorem apply_leet_transformations_jade :
    "]ade".toList ∈ apply_leet_transformations "jade".toList ∧
    "Ja)e".toList ∈ apply_leet_transformations "jade".toList ∧
    "Ja>e".toList ∈ apply_leet_transformations "jade".toList ∧
    "Jad3".toList ∈ apply_leet_transformations "jade".toList ∧
    "]a]e".toList ∉ apply_leet_transformations "jade".toList ∧
    (∀ (word v : List Char), v ∈ apply_leet_transformations word →
      v.length = word.length ∧
        diffPositions (v.map toLowerA) (word.map toLowerA) ≤ 1) := by
  refine ⟨by decide, by decide, by decide, by decide, by decide, ?_⟩
  exact apply_leet_transformations_single_substitution

/-- Witness for the amended C4: the general single-substitution bound
evaluated on the variant `]ade` of `jade`. -/
theorem apply_leet_transformations_jade_witness :
    "]ade".toList ∈ apply_leet_transformations "jade".toList ∧
    ("]ade".toList.length = "jade".toList.length ∧
      diffPositions ("]ade".toList.map toLowerA) ("jade".toList.map toLowerA) ≤ 1) :=
  ⟨by decide,
   apply_leet_transformations_jade.2.2.2.2.2 "jade".toList "]ade".toList (by decide)⟩

/-! ## Inversion relation between the two leet maps (C5) -/

/-- The symbol `s` reverses to the letter `l`: some entry of
`reverse_leet_map` is keyed by `s` and lists `l` among its candidate
letters. -/
def revMapsTo (s l : Char) : Prop :=
  ∃ p ∈ reverse_leet_map, p.1 = s ∧ l ∈ p.2

/-- The letter `l` is substituted by the symbol `s`: some entry of
`leetspeak_map` is keyed by `l` and lists `s` among its substitutes. -/
def fwdMapsTo (l s : Char) : Prop :=
  ∃ p ∈ leetspeak_map, p.1 = l ∧ s ∈ p.2

instance (s l : Char) : Decidable (revMapsTo s l) := by
  unfold revMapsTo; infer_instance

instance (l s : Char) : Decidable (fwdMapsTo l s) := by
  unfold fwdMapsTo; infer_instance

/-- C5 counterexample: the symbol `2` reverses to the letter `z` in
`reverse_leet_map`, but no letter maps to `2` in `leetspeak_map` — the
reverse map is not the inversion of the forward map. -/
theorem reverse_map_not_inverse_counterexample :
    revMapsTo '2' 'z' ∧ ¬ fwdMapsTo 'z' '2' := by
  decide

/-- C5 amended: away from the extra entry for the symbol `2`, the
reverse map is exactly the inversion of the forward map; `2` reverses
only to `z`, which has no forward counterpart; and an entry of the
reverse map has more than one candidate letter exactly when its symbol
has more than one forward preimage (this holds only of `<`). -/
theorem reverse_map_inverse_away_from_two :
    (∀ s l : Char, s ≠ '2' → (revMapsTo s l ↔ fwdMapsTo l s)) ∧
    (∀ l : Char, revMapsTo '2' l ↔ l = 'z') ∧
    (∀ l : Char, ¬ fwdMapsTo l '2') ∧
    (∀ p ∈ reverse_leet_map,
      (1 < p.2.length ↔ 1 < (leetspeak_map.filter (fun q => q.2.contains p.1)).length) ∧
      (1 < p.2.length ↔ p.1 = '<')) := by
  refine ⟨?_, ?_, ?_, by decide⟩
  · intro s l hs
    constructor
    · rintro ⟨p, hp, hps, hpl⟩
      subst hps
      fin_cases hp <;> simp_all <;>
        first
        | (subst hpl; decide)
        | (rcases hpl with rfl | rfl <;> decide)
    · rintro ⟨p, hp, hpl, hps⟩
      subst hpl
      fin_cases hp <;> simp_all <;> rcases hps with rfl | rfl <;> decide
  · intro l
    constructor
    · rintro ⟨p, hp, hps, hpl⟩
      fin_cases hp <;> simp_all
    · rintro rfl
      decide
  · intro l
    rintro ⟨p, hp, hpl, hps⟩
    fin_cases hp <;> simp_all

/-- Witness for the amended C5: the inversion equivalence evaluated at
the symbol `@` and the letter `a`. -/
theorem reverse_map_inverse_away_from_two_witness :
    (('@' : Char) ≠ '2') ∧ (revMapsTo '@' 'a' ↔ fwdMapsTo 'a' '@') :=
  ⟨by decide, reverse_map_inverse_away_from_two.1 '@' 'a' (by decide)⟩

/-! ## Behaviour of the Token Splitter (C3) -/

/-- `findIdxA` finds nothing on a list where the predicate never
holds. -/
theorem findIdxA_eq_none (p : Char → Bool) (l : List Char)
    (h : ∀ c ∈ l, p c = false) : findIdxA p l = none := by
  induction l with
  | nil => rfl
  | cons c t ih =>
    unfold findIdxA
    rw [h c (List.mem_cons_self c t), ih (fun x hx => h x (List.mem_cons_of_mem c hx))]
    rfl

/-- A body with no uppercase letter after position 0 has no camelCase
split. -/
theorem splitCamel_eq_none (body : List Char)
    (h : ∀ c ∈ body.drop 1, isUpperA c = false) : splitCamel body = none := by
  unfold splitCamel
  rw [findIdxA_eq_none _ _ h]

/-- The letter/non-letter boundary rule fires exactly on a non-empty
leading alphabetic run followed by at least two characters. -/
theorem splitLetterBoundary_eq_some (body : List Char)
    (ha : body.takeWhile isAlphaA ≠ [])
    (hrest : 2 ≤ (body.dropWhile isAlphaA).length) :
    splitLetterBoundary body
      = some (body.takeWhile isAlphaA, body.dropWhile isAlphaA) := by
  obtain ⟨x, xs, hx⟩ : ∃ x xs, body.takeWhile isAlphaA = x :: xs := by
    cases h : body.takeWhile isAlphaA with
    | nil => exact absurd h ha
    | cons x xs => exact ⟨x, xs, rfl⟩
  obtain ⟨r1, r2, rs, hr⟩ :
      ∃ r1 r2 rs, body.dropWhile isAlphaA = r1 :: r2 :: rs := by
    cases h : body.dropWhile isAlphaA with
    | nil => rw [h] at hrest; simp at hrest
    | cons r1 rest =>
      cases rest with
      | nil => rw [h] at hrest; simp at hrest
      | cons r2 rs => exact ⟨r1, r2, rs, rfl⟩
  unfold splitLetterBoundary
  rw [hx, hr]

/-- The midpoint fallback of the splitter. -/
theorem split_body_midpoint (body : List Char)
    (hc : splitCamel body = none) (hl : splitLetterBoundary body = none)
    (hlen : max 2 (body.length / 2) < body.length) :
    split_body body
      = some (body.take (max 2 (body.length / 2)),
              body.drop (max 2 (body.length / 2))) := by
  unfold split_body
  rw [hc, hl]
  dsimp only
  rw [if_neg (by omega)]

/-- The splitter returns nothing exactly when neither boundary rule
fires and the midpoint would leave an empty right fragment. -/
theorem split_body_eq_none_iff (body : List Char) :
    split_body body = none ↔
      splitCamel body = none ∧ splitLetterBoundary body = none ∧
        body.drop (max 2 (body.length / 2)) = [] := by
  unfold split_body
  cases hc : splitCamel body with
  | some lr => simp [hc]
  | none =>
    cases hl : splitLetterBoundary body with
    | some lr => simp [hl]
    | none =>
      dsimp only
      rw [List.drop_eq_nil_iff]
      split <;> simp_all

/-- C3 counterexample: the body `abc#` has no internal uppercase letter
and its first non-alphabetic character `#` follows the leading
alphabetic run `abc`, yet the splitter does not split at that boundary:
because nothing follows `#`, the boundary rule's pattern fails and the
midpoint fallback returns `(ab, c#)` instead of `(abc, #)`. -/
theorem token_splitter_boundary_counterexample :
    (("abc#".toList.drop 1).all (fun c => !isUpperA c) = true) ∧
    "abc#".toList.takeWhile isAlphaA = "abc".toList ∧
    "abc#".toList.dropWhile isAlphaA = "#".toList ∧
    split_body "abc#".toList = some ("ab".toList, "c#".toList) ∧
    split_body "abc#".toList ≠ some ("abc".toList, "#".toList) := by
  decide

/-- C3 amended: for a body with no internal uppercase letter whose
first non-alphabetic character follows a leading alphabetic run AND is
itself followed by at least one further character, the splitter splits
at that boundary keeping the first non-alphabetic character in the
right fragment; when neither boundary rule applies it splits at the
midpoint giving the left fragment `max 2 (length / 2)` characters
provided a non-empty right fragment remains; and the split of a
password fails exactly when the password is shorter than 4 characters
or neither rule fires and the midpoint fallback would leave an empty
right fragment. -/
theorem token_splitter_spec :
    (∀ body : List Char,
      (∀ c ∈ body.drop 1, isUpperA c = false) →
      body.takeWhile isAlphaA ≠ [] →
      2 ≤ (body.dropWhile isAlphaA).length →
      split_body body = some (body.takeWhile isAlphaA, body.dropWhile isAlphaA)) ∧
    (∀ body : List Char,
      splitCamel body = none → splitLetterBoundary body = none →
      max 2 (body.length / 2) < body.length →
      split_body body
        = some (body.take (max 2 (body.length / 2)),
                body.drop (max 2 (body.length / 2)))) ∧
    (∀ password : List Char,
      (password.length < 4 ∨
        split_body (password.take (password.length - 2)) = none) ↔
      (password.length < 4 ∨
        (splitCamel (password.take (password.length - 2)) = none ∧
         splitLetterBoundary (password.take (password.length - 2)) = none ∧
         (password.take (password.length - 2)).drop
           (max 2 ((password.take (password.length - 2)).length / 2)) = []))) := by
  refine ⟨?_, split_body_midpoint, ?_⟩
  · intro body hupper ha hrest
    have hc : splitCamel body = none := splitCamel_eq_none body hupper
    have hl := splitLetterBoundary_eq_some body ha hrest
    unfold split_body
    rw [hc, hl]
  · intro password
    rw [split_body_eq_none_iff]

/-- Witness for the amended C3: the boundary rule on `abc#d`, the
midpoint rule on `abcd`, and the failure characterization on the
four-character password `ab42`. -/
theorem token_splitter_spec_witness :
    ((∀ c ∈ "abc#d".toList.drop 1, isUpperA c = false) ∧
      "abc#d".toList.takeWhile isAlphaA ≠ [] ∧
      2 ≤ ("abc#d".toList.dropWhile isAlphaA).length ∧
      split_body "abc#d".toList
        = some ("abc#d".toList.takeWhile isAlphaA, "abc#d".toList.dropWhile isAlphaA)) ∧
    (splitCamel "abcd".toList = none ∧ splitLetterBoundary "abcd".toList = none ∧
      max 2 ("abcd".toList.length / 2) < "abcd".toList.length ∧
      split_body "abcd".toList
        = some ("abcd".toList.take (max 2 ("abcd".toList.length / 2)),
                "abcd".toList.drop (max 2 ("abcd".toList.length / 2)))) ∧
    (("ab42".toList.length < 4 ∨
        split_body ("ab42".toList.take ("ab42".toList.length - 2)) = none) ↔
      ("ab42".toList.length < 4 ∨
        (splitCamel ("ab42".toList.take ("ab42".toList.length - 2)) = none ∧
         splitLetterBoundary ("ab42".toList.take ("ab42".toList.length - 2)) = none ∧
         ("ab42".toList.take ("ab42".toList.length - 2)).drop
           (max 2 (("ab42".toList.take ("ab42".toList.length - 2)).length / 2)) = []))) :=
  ⟨⟨by decide, by decide, by decide,
    token_splitter_spec.1 "abc#d".toList (by decide) (by decide) (by decide)⟩,
   ⟨by decide, by decide, by decide,
    token_splitter_spec.2.1 "abcd".toList (by decide) (by decide) (by decide)⟩,
   token_splitter_spec.2.2 "ab42".toList⟩

/-! ## Round-trip of synthetic passwords (C7) -/

/-- The 26 ASCII lowercase letters. -/
def asciiLower : List Char :=
  ['a', 'b', 'c', 'd', 'e', 'f', 'g', 'h', 'i', 'j', 'k', 'l', 'm',
   'n', 'o', 'p', 'q', 'r', 's', 't', 'u', 'v', 'w', 'x', 'y', 'z']

/-- The 52 ASCII letters. -/
def asciiAlpha : List Char :=
  asciiLower ++
  ['A', 'B', 'C', 'D', 'E', 'F', 'G', 'H', 'I', 'J', 'K', 'L', 'M',
   'N', 'O', 'P', 'Q', 'R', 'S', 'T', 'U', 'V', 'W', 'X', 'Y', 'Z']

/-- Lowercase letters are not uppercase. -/
theorem lower_not_upper : ∀ c ∈ asciiLower, isUpperA c = false := by decide

/-- Lowercase letters satisfy `isLowerA`. -/
theorem lower_isLower : ∀ c ∈ asciiLower, isLowerA c = true := by decide

/-- Lowercase letters are fixed by `toLowerA`. -/
theorem lower_toLowerA : ∀ c ∈ asciiLower, toLowerA c = c := by decide

/-- Lowercase letters are letters. -/
theorem lower_sub_alpha : ∀ c ∈ asciiLower, c ∈ asciiAlpha := by decide

/-- Uppercasing a letter yields an uppercase character. -/
theorem alpha_toUpperA_isUpper : ∀ c ∈ asciiAlpha, isUpperA (toUpperA c) = true := by
  decide

/-- Lowercasing a letter lands in the lowercase letters. -/
theorem alpha_toLowerA_mem : ∀ c ∈ asciiAlpha, toLowerA c ∈ asciiLower := by decide

/-- No reverse-leet symbol is a letter. -/
theorem reverse_symbols_not_alpha : ∀ p ∈ reverse_leet_map, p.1 ∉ asciiAlpha := by
  decide

/-- A map whose function fixes every member is the identity. -/
theorem map_id_of_mem {f : Char → Char} {l : List Char}
    (h : ∀ c ∈ l, f c = c) : l.map f = l := by
  rw [List.map_congr_left h]
  exact List.map_id l

/-- Lowercasing erases the capitalization performed by `capitalizeA`. -/
theorem map_toLowerA_capitalizeA (w : List Char) :
    (capitalizeA w).map toLowerA = w.map toLowerA := by
  cases w with
  | nil => rfl
  | cons c rest =>
    simp only [capitalizeA, List.map_cons, List.map_map, toLowerA_toUpperA]
    congr 1
    exact List.map_congr_left (fun x _ => toLowerA_idem x)

/-- `capitalizeA` preserves length. -/
theorem capitalizeA_length (w : List Char) : (capitalizeA w).length = w.length := by
  cases w with
  | nil => rfl
  | cons c rest => simp [capitalizeA]

/-- The substitution fold of `deleet_word` leaves a candidate alone
when no symbol of the map occurs in it. -/
theorem deleet_foldl_const (m : List (Char × List Char)) (w0 : List Char)
    (h : ∀ p ∈ m, w0.contains p.1 = false) :
    m.foldl (fun cs p => deleetStep p.1 p.2 cs) [w0] = [w0] := by
  induction m with
  | nil => rfl
  | cons p t ih =>
    rw [List.foldl_cons]
    have hstep : deleetStep p.1 p.2 [w0] = [w0] := by
      unfold deleetStep
      rw [List.flatMap_cons, List.flatMap_nil]
      rw [h p (List.mem_cons_self p t)]
      simp
    rw [hstep]
    exact ih (fun q hq => h q (List.mem_cons_of_mem p hq))

/-- `deleet_word` on a purely alphabetic word is plain lowercasing:
no reverse symbol occurs, so no substitution, no spellcheck, and the
non-letter strip keeps every character. -/
theorem deleet_word_alpha (spell : List Char → Bool) (w : List Char)
    (hw : ∀ c ∈ w, c ∈ asciiAlpha) : deleet_word spell w = w.map toLowerA := by
  have hlowmem : ∀ c ∈ w.map toLowerA, c ∈ asciiLower := by
    intro c hc
    rw [List.mem_map] at hc
    obtain ⟨x, hx, rfl⟩ := hc
    exact alpha_toLowerA_mem x (hw x hx)
  have hnosym : ∀ p ∈ reverse_leet_map, w.contains p.1 = false := by
    intro p hp
    simp only [List.contains_eq_any_beq, List.any_eq_false, beq_iff_eq]
    rintro x hx rfl
    exact reverse_symbols_not_alpha p hp (hw p.1 hx)
  have hnosymlow : ∀ p ∈ reverse_leet_map, (w.map toLowerA).contains p.1 = false := by
    intro p hp
    simp only [List.contains_eq_any_beq, List.any_eq_false, beq_iff_eq]
    rintro x hx rfl
    exact reverse_symbols_not_alpha p hp (lower_sub_alpha p.1 (hlowmem p.1 hx))
  have hspell :
      reverse_leet_map.any (fun p => decide (1 < p.2.length) && w.contains p.1) = false := by
    rw [List.any_eq_false]
    intro p hp
    rw [hnosym p hp]
    simp
  have hfold :
      reverse_leet_map.foldl (fun cs p => deleetStep p.1 p.2 cs) [w.map toLowerA]
        = [w.map toLowerA] :=
    deleet_foldl_const reverse_leet_map (w.map toLowerA) hnosymlow
  have hkeep : (w.map toLowerA).filter isLowerA = w.map toLowerA := by
    rw [List.filter_eq_self]
    intro c hc
    exact lower_isLower c (hlowmem c hc)
  unfold deleet_word
  dsimp only
  rw [hspell, hfold]
  simp only [List.map_cons, List.map_nil, hkeep]
  simp

/-- Uppercasing a letter stays among the letters. -/
theorem alpha_toUpperA_mem : ∀ c ∈ asciiAlpha, toUpperA c ∈ asciiAlpha := by decide

/-- `findIdxA` on a list whose first satisfying element sits right
after a prefix of non-satisfying ones. -/
theorem findIdxA_append_first (p : Char → Bool) (l1 : List Char) (c : Char)
    (l2 : List Char) (h1 : ∀ x ∈ l1, p x = false) (hc : p c = true) :
    findIdxA p (l1 ++ c :: l2) = some l1.length := by
  induction l1 with
  | nil =>
    rw [List.nil_append]
    unfold findIdxA
    rw [hc]
    rfl
  | cons a t ih =>
    rw [List.cons_append]
    unfold findIdxA
    rw [h1 a (List.mem_cons_self a t),
      ih (fun x hx => h1 x (List.mem_cons_of_mem a hx))]
    rfl

/-- The camelCase split on a body made of a lowercase run followed by
an uppercase-initial remainder cuts exactly between the two. -/
theorem splitCamel_append (a0 : Char) (arest : List Char) (u : Char)
    (tail : List Char) (hlow : ∀ c ∈ arest, isUpperA c = false)
    (hu : isUpperA u = true) :
    splitCamel ((a0 :: arest) ++ (u :: tail)) = some (a0 :: arest, u :: tail) := by
  unfold splitCamel
  have hdrop : ((a0 :: arest) ++ (u :: tail)).drop 1 = arest ++ (u :: tail) := by
    simp
  rw [hdrop, findIdxA_append_first _ _ _ _ hlow hu]
  dsimp only
  rw [List.take_left' (by simp : (a0 :: arest).length = arest.length + 1),
    List.drop_left' (by simp : (a0 :: arest).length = arest.length + 1)]

/-- The full decomposition of a synthetic password
`adjective ++ capitalize noun ++ "42"` built from a lowercase adjective
and an alphabetic noun, both of length at least 2: the analysis
succeeds and recovers the adjective exactly and the noun lowercased. -/
theorem analyze_password_structure_synthetic (spell : List Char → Bool)
    (adjective noun : List Char)
    (ha2 : 2 ≤ adjective.length) (hn2 : 2 ≤ noun.length)
    (hadj : ∀ c ∈ adjective, c ∈ asciiLower)
    (hnoun : ∀ c ∈ noun, c ∈ asciiAlpha) :
    analyze_password_structure spell (adjective ++ capitalizeA noun ++ ['4', '2'])
      = some { adjective := adjective
               noun := noun.map toLowerA
               digits := ['4', '2']
               original := adjective ++ capitalizeA noun ++ ['4', '2']
               clean_form :=
                 adjective ++ capitalizeA (noun.map toLowerA) ++ ['4', '2'] } := by
  obtain ⟨a0, arest, rfl⟩ : ∃ a0 arest, adjective = a0 :: arest := by
    cases adjective with
    | nil => simp at ha2
    | cons a t => exact ⟨a, t, rfl⟩
  obtain ⟨n0, nrest, rfl⟩ : ∃ n0 nrest, noun = n0 :: nrest := by
    cases noun with
    | nil => simp at hn2
    | cons n t => exact ⟨n, t, rfl⟩
  have hcap : capitalizeA (n0 :: nrest) = toUpperA n0 :: nrest.map toLowerA := rfl
  have hassoc :
      (a0 :: arest) ++ capitalizeA (n0 :: nrest) ++ ['4', '2']
        = ((a0 :: arest) ++ capitalizeA (n0 :: nrest)) ++ ['4', '2'] := rfl
  have hblen : ((a0 :: arest) ++ capitalizeA (n0 :: nrest)).length
      = arest.length + nrest.length + 2 := by
    simp [capitalizeA_length]
    omega
  have hplen : ((a0 :: arest) ++ capitalizeA (n0 :: nrest) ++ ['4', '2']).length
      = arest.length + nrest.length + 4 := by
    simp [capitalizeA_length]
    omega
  have hsub : ((a0 :: arest) ++ capitalizeA (n0 :: nrest) ++ ['4', '2']).length - 2
      = ((a0 :: arest) ++ capitalizeA (n0 :: nrest)).length := by
    omega
  have htake : ((a0 :: arest) ++ capitalizeA (n0 :: nrest) ++ ['4', '2']).take
      (((a0 :: arest) ++ capitalizeA (n0 :: nrest) ++ ['4', '2']).length - 2)
      = (a0 :: arest) ++ capitalizeA (n0 :: nrest) := by
    rw [hsub, hassoc, List.take_left]
  have hdropsfx : ((a0 :: arest) ++ capitalizeA (n0 :: nrest) ++ ['4', '2']).drop
      (((a0 :: arest) ++ capitalizeA (n0 :: nrest) ++ ['4', '2']).length - 2)
      = ['4', '2'] := by
    rw [hsub, hassoc, List.drop_left]
  have hsplit : split_body ((a0 :: arest) ++ capitalizeA (n0 :: nrest))
      = some (a0 :: arest, capitalizeA (n0 :: nrest)) := by
    rw [hcap]
    unfold split_body
    rw [splitCamel_append a0 arest (toUpperA n0) (nrest.map toLowerA)
      (fun c hc => lower_not_upper c (hadj c (List.mem_cons_of_mem a0 hc)))
      (alpha_toUpperA_isUpper n0 (hnoun n0 (List.mem_cons_self n0 nrest)))]
  have hadjalpha : ∀ c ∈ a0 :: arest, c ∈ asciiAlpha :=
    fun c hc => lower_sub_alpha c (hadj c hc)
  have hcapalpha : ∀ c ∈ capitalizeA (n0 :: nrest), c ∈ asciiAlpha := by
    rw [hcap]
    intro c hc
    rcases List.mem_cons.mp hc with rfl | hc
    · exact alpha_toUpperA_mem n0 (hnoun n0 (List.mem_cons_self n0 nrest))
    · rw [List.mem_map] at hc
      obtain ⟨x, hx, rfl⟩ := hc
      exact lower_sub_alpha _
        (alpha_toLowerA_mem x (hnoun x (List.mem_cons_of_mem n0 hx)))
  have hadjlow : (a0 :: arest).map toLowerA = a0 :: arest :=
    map_id_of_mem (fun c hc => lower_toLowerA c (hadj c hc))
  have hdeleft : ((deleet_word spell (a0 :: arest)).map toLowerA) = a0 :: arest := by
    rw [deleet_word_alpha spell _ hadjalpha, hadjlow, hadjlow]
  have hnounlowfix : ((n0 :: nrest).map toLowerA).map toLowerA
      = (n0 :: nrest).map toLowerA :=
    map_id_of_mem (fun c hc => by
      rw [List.mem_map] at hc
      obtain ⟨x, hx, rfl⟩ := hc
      exact lower_toLowerA _ (alpha_toLowerA_mem x (hnoun x hx)))
  have hderight : ((deleet_word spell (capitalizeA (n0 :: nrest))).map toLowerA)
      = (n0 :: nrest).map toLowerA := by
    rw [deleet_word_alpha spell _ hcapalpha, map_toLowerA_capitalizeA, hnounlowfix]
  unfold analyze_password_structure
  rw [if_neg (by rw [hplen]; omega)]
  dsimp only
  rw [htake, hdropsfx, hsplit]
  dsimp only
  rw [hdeleft, hderight]
  rw [if_neg (by
    have ha2' : 2 ≤ arest.length + 1 := by simpa using ha2
    have hn2' : 2 ≤ nrest.length + 1 := by simpa using hn2
    simp only [Bool.or_eq_true, decide_eq_true_eq, List.length_cons, List.length_map]
    omega)]
  have hdig : (['4', '2'].all isDigitA) = true := by decide
  rw [hdig]
  rfl

/-- C7: analyzing the synthetic password
`adjective ++ noun.capitalize() ++ "42"` built from purely alphabetic
words (adjective all lowercase, both of length at least 2, hence
containing an internal uppercase boundary and no leet symbol) succeeds
and recovers the adjective and the noun case-insensitively. -/
theorem synthetic_password_roundtrip (spell : List Char → Bool)
    (adjective noun : List Char)
    (ha2 : 2 ≤ adjective.length) (hn2 : 2 ≤ noun.length)
    (hadj : ∀ c ∈ adjective, c ∈ asciiLower)
    (hnoun : ∀ c ∈ noun, c ∈ asciiAlpha) :
    ∃ r, analyze_password_structure spell
        (adjective ++ capitalizeA noun ++ ['4', '2']) = some r ∧
      r.adjective = adjective ∧ r.noun = noun.map toLowerA :=
  ⟨_, analyze_password_structure_synthetic spell adjective noun ha2 hn2 hadj hnoun,
    rfl, rfl⟩

/-- Witness for C7: the round trip on `wild` and `lion`. -/
theorem synthetic_password_roundtrip_witness :
    ∃ r, analyze_password_structure (fun _ => false)
        ("wild".toList ++ capitalizeA "lion".toList ++ ['4', '2']) = some r ∧
      r.adjective = "wild".toList ∧ r.noun = "lion".toList.map toLowerA :=
  synthetic_password_roundtrip (fun _ => false) "wild".toList "lion".toList
    (by decide) (by decide) (by decide) (by decide)

end Dinocrack
